import Mathlib

/-!
# Verification of the `PixelGrid` PSF model (piff/pixelgrid.py)

A shallow embedding, over exact rational arithmetic, of the parameter-estimation
engine of the `PixelGrid` class: the fast separable design-matrix construction in
`chisq`, the least-squares update bookkeeping in `fit`, the flux/centroid
normalization (including the legacy short-vector remap) in `normalize`, and the
`initialize` starting vectors.

External numerical services (the GalSim renderer, `np.exp`, `np.sqrt`, the LAPACK
`gelsy` least-squares driver, and the `hsm` moment measurement) are modelled as
abstract function parameters; everything the Python code computes itself is
transcribed directly.
-/

namespace PixelGridModel

/-! ## Scatter assignment

`scatter ps f` is the semantics of a sequence of element assignments
`f[k] = v` for `(k, v)` in `ps`, applied left to right, starting from `f`.
This models numpy fancy-index assignment such as
`A[i, cols.ravel()] = uvwt[i, p1:p2, q1:q2].ravel()` (chisq, line 457) and
boolean-mask assignment `temp[mask] = params` (normalize, line 524). -/
def scatter {α : Type} [DecidableEq α] (ps : List (α × ℚ)) (f : α → ℚ) : α → ℚ :=
  ps.foldl (fun acc pr => Function.update acc pr.1 pr.2) f

/-! ## The interpolation kernel and the fast separable path of `chisq`

The model works in the scaled coordinates of chisq's fast branch
(`u = u[mask] / self.scale`, line 383): one model grid cell is one unit.
The kernel is abstract: `xval` is `self.interp.xval` and `xr` is
`int(np.ceil(self.interp.xrange))` (line 387). -/

structure Kernel where
  xval : ℚ → ℚ
  xr : ℕ

/-- The kernel weight vanishes outside the support radius (`interp.xval` is zero
for `|t| >= interp.xrange`, hence for `|t| >= xr = ceil(xrange)`). -/
def Kernel.SuppOK (K : Kernel) : Prop := ∀ t : ℚ, (K.xr : ℚ) ≤ |t| → K.xval t = 0

/-- The kernel weight is an even function (all GalSim interpolants are symmetric). -/
def Kernel.Symm (K : Kernel) : Prop := ∀ t : ℚ, K.xval (-t) = K.xval t

/-- `self._origin = self.size // 2` (line 97). -/
def origin (size : ℕ) : ℕ := size / 2

/-- `self.maxuv = (self.size+1)/2. * self.scale` (line 93). -/
def maxuv (size : ℕ) (scale : ℚ) : ℚ := ((size : ℚ) + 1) / 2 * scale

/-! Slice bounds for one axis of the scatter window, following chisq lines
427-447.  `vi` is `⌊v⌋` (resp. `⌊u⌋`); the unclipped slice into the
`col_index` array is `[vi - xr + origin + 1, vi + xr + origin + 1)`, and the
matching slice into the weight array is `[0, 2*xr)`; each is clipped at the
grid boundary. -/

def i1raw (size xr : ℕ) (vi : ℤ) : ℤ := vi - xr + origin size + 1
def i2raw (size xr : ℕ) (vi : ℤ) : ℤ := vi + xr + origin size + 1

def i1c (size xr : ℕ) (vi : ℤ) : ℤ := if i1raw size xr vi < 0 then 0 else i1raw size xr vi
def p1c (size xr : ℕ) (vi : ℤ) : ℤ := if i1raw size xr vi < 0 then -i1raw size xr vi else 0
def i2c (size xr : ℕ) (vi : ℤ) : ℤ :=
  if i2raw size xr vi > size then size else i2raw size xr vi
def p2c (size xr : ℕ) (vi : ℤ) : ℤ :=
  if i2raw size xr vi > size then 2 * xr - (i2raw size xr vi - size) else 2 * xr

/-- `uwt = interp.xval(-uf + arange(-xr+1, xr+1))`, scaled by the pixel-area
ratio `flux_scaling` (lines 390-399); entry `q` of the array is the weight at
offset `-uf + (q - xr + 1)`. -/
def uwt (K : Kernel) (fluxScaling : ℚ) (u : ℚ) (q : ℤ) : ℚ :=
  fluxScaling * K.xval (-(Int.fract u) + ((q : ℚ) - K.xr + 1))

/-- `vwt = interp.xval(-vf + arange(-xr+1, xr+1))` (line 393), not flux-scaled. -/
def vwt (K : Kernel) (v : ℚ) (p : ℤ) : ℚ :=
  K.xval (-(Int.fract v) + ((p : ℚ) - K.xr + 1))

/-- The assignments performed for one retained pixel by
`A[i, cols.ravel()] = uvwt[i, p1:p2, q1:q2].ravel()` (line 457):
`cols = col_index[i1:i2, j1:j2]` with `col_index[r, c] = r*size + c`, paired
entrywise with the clipped slice of the outer product
`uvwt[i, p, q] = uwt[i, q] * vwt[i, p]` (line 420).  The row-major pairing of
the two equal-shaped slices matches cell `(i1+a, j1+b)` of `col_index` with
entry `(p1+a, q1+b)` of `uvwt`. -/
def rowPairs (size xr : ℕ) (ui vi : ℤ) (w : ℤ → ℤ → ℚ) : List (ℕ × ℚ) :=
  (List.range (i2c size xr vi - i1c size xr vi).toNat).flatMap (fun a : ℕ =>
    (List.range (i2c size xr ui - i1c size xr ui).toNat).map (fun b : ℕ =>
      (((i1c size xr vi + (a : ℤ)) * size + (i1c size xr ui + (b : ℤ))).toNat,
        w (p1c size xr vi + (a : ℤ)) (p1c size xr ui + (b : ℤ)))))

/-- One row of the design matrix `A` as built by the fast separable path
(chisq lines 383-457), before the common `A *= star.fit.flux` and
`A *= sqrt(weight)` factors: the scatter of the windowed outer-product weights
into an initially zero row.  `u`, `v` are the retained pixel's offsets from the
fit center in units of the model scale. -/
def Arow (size : ℕ) (K : Kernel) (fluxScaling : ℚ) (u v : ℚ) : ℕ → ℚ :=
  scatter
    (rowPairs size K.xr ⌊u⌋ ⌊v⌋ (fun p q => uwt K fluxScaling u q * vwt K v p))
    (fun _ => 0)

/-- The slow per-basis-pixel value of the same design-matrix entry, stated from
the spec's description of the naive path (spec 4.4 steps 2-3): for basis pixel
`k` (grid node at row `k / size`, column `k % size`, i.e. at offset
`du = k % size - origin`, `dv = k / size - origin` in model-scale units), the
entry is the product of the two separable 1-D interpolation weights evaluated
at the pixel-to-node offset, scaled by the pixel-area ratio. -/
def ArowNaive (size : ℕ) (K : Kernel) (fluxScaling : ℚ) (u v : ℚ) (k : ℕ) : ℚ :=
  if k < size * size then
    fluxScaling * K.xval (u - (((k % size : ℕ) : ℚ) - origin size))
      * K.xval (v - (((k / size : ℕ) : ℚ) - origin size))
  else 0

/-! ## The masked pixel set and the design matrix of `chisq`

`data, weight, u, v = star.data.getDataVector()` supplies equal-length pixel
arrays.  `mask = (np.abs(u) <= self.maxuv) & (np.abs(v) <= self.maxuv) &
(weight != 0)` (line 296) after shifting `u`, `v` by the fit center. -/

def maskedIdxs (size : ℕ) (scale u0 v0 : ℚ) (weight u v : List ℚ) : List ℕ :=
  (List.range weight.length).filter fun i =>
    decide (|u.getD i 0 - u0| ≤ maxuv size scale ∧
      |v.getD i 0 - v0| ≤ maxuv size scale ∧ weight.getD i 0 ≠ 0)

/-- The design matrix `A` of `chisq` (fast separable path), rows indexed by
retained pixels, including the common factors `A *= star.fit.flux` (line 460)
and `A *= sqrt(weight)[:, np.newaxis]` (line 465).  `sqrtQ` abstracts
`np.sqrt`. -/
def chisqA (size : ℕ) (K : Kernel) (scale fluxScaling starFlux : ℚ) (sqrtQ : ℚ → ℚ)
    (u0 v0 : ℚ) (weight u v : List ℚ) :
    Matrix (Fin (maskedIdxs size scale u0 v0 weight u v).length) (Fin (size * size)) ℚ :=
  Matrix.of fun i k =>
    Arow size K fluxScaling
        ((u.getD ((maskedIdxs size scale u0 v0 weight u v).get i) 0 - u0) / scale)
        ((v.getD ((maskedIdxs size scale u0 v0 weight u v).get i) 0 - v0) / scale) k
      * starFlux * sqrtQ (weight.getD ((maskedIdxs size scale u0 v0 weight u v).get i) 0)

/-- The design matrix built by the slow per-basis-pixel path instead
(`ArowNaive`), with the same common factors. -/
def chisqANaive (size : ℕ) (K : Kernel) (scale fluxScaling starFlux : ℚ) (sqrtQ : ℚ → ℚ)
    (u0 v0 : ℚ) (weight u v : List ℚ) :
    Matrix (Fin (maskedIdxs size scale u0 v0 weight u v).length) (Fin (size * size)) ℚ :=
  Matrix.of fun i k =>
    ArowNaive size K fluxScaling
        ((u.getD ((maskedIdxs size scale u0 v0 weight u v).get i) 0 - u0) / scale)
        ((v.getD ((maskedIdxs size scale u0 v0 weight u v).get i) 0 - v0) / scale) k
      * starFlux * sqrtQ (weight.getD ((maskedIdxs size scale u0 v0 weight u v).get i) 0)

/-- The triangular (linear-interpolation) kernel: support radius 1. -/
def linKernel : Kernel := ⟨fun t => if |t| < 1 then 1 - |t| else 0, 1⟩

/-! ## `normalize` (lines 499-546)

The legacy remap rebuilds a full `size × size` grid from a parameter vector
that is short by 1 (central cell reserved) or by 3 (central cell and its two
`+1` neighbours reserved).  The grid is a function on `ℕ × ℕ` (row `r` is the
`v` axis, column `c` is the `u` axis, matching `temp[r, c]` with row-major
`ravel`). -/

def gridPositions (size : ℕ) : List (ℕ × ℕ) :=
  (List.range size).flatMap (fun r : ℕ => (List.range size).map (fun c : ℕ => (r, c)))

def gridFinset (size : ℕ) : Finset (ℕ × ℕ) := Finset.range size ×ˢ Finset.range size

/-- `np.sum(v * temp)` with `v[r, c] = r - origin` (lines 527-532). -/
def sumV (size : ℕ) (f : ℕ × ℕ → ℚ) : ℚ :=
  ∑ p in gridFinset size, ((p.1 : ℚ) - origin size) * f p

/-- `np.sum(u * temp)` with `u[r, c] = c - origin` (lines 527-533). -/
def sumU (size : ℕ) (f : ℕ × ℕ → ℚ) : ℚ :=
  ∑ p in gridFinset size, ((p.2 : ℚ) - origin size) * f p

/-- `np.sum(temp)` (line 537). -/
def sumTot (size : ℕ) (f : ℕ × ℕ → ℚ) : ℚ := ∑ p in gridFinset size, f p

/-- The cells excluded from the boolean mask (lines 516-523): always the
central cell; when short by 3, also `(origin+1, origin)` and `(origin, origin+1)`. -/
def reservedCells (size : ℕ) (short3 : Bool) : List (ℕ × ℕ) :=
  if short3 then
    [(origin size, origin size), (origin size + 1, origin size),
     (origin size, origin size + 1)]
  else [(origin size, origin size)]

/-- `temp = np.zeros(...); temp[mask] = params` (lines 515-524): row-major
scatter of the supplied values into the non-reserved cells. -/
def remapT0 (size : ℕ) (short3 : Bool) (params : List ℚ) : ℕ × ℕ → ℚ :=
  scatter
    (((gridPositions size).filter
        (fun rc => decide (rc ∉ reservedCells size short3))).zip params)
    (fun _ => 0)

/-- `temp[origin+1, origin] = -np.sum(v*temp)` (line 532), only when short by 3. -/
def remapT1 (size : ℕ) (short3 : Bool) (params : List ℚ) : ℕ × ℕ → ℚ :=
  if short3 then
    Function.update (remapT0 size short3 params) (origin size + 1, origin size)
      (-(sumV size (remapT0 size short3 params)))
  else remapT0 size short3 params

/-- `temp[origin, origin+1] = -np.sum(u*temp)` (line 533), only when short by 3. -/
def remapT2 (size : ℕ) (short3 : Bool) (params : List ℚ) : ℕ × ℕ → ℚ :=
  if short3 then
    Function.update (remapT1 size short3 params) (origin size, origin size + 1)
      (-(sumU size (remapT1 size short3 params)))
  else remapT1 size short3 params

/-- `temp[origin] = 1./self.pixel_area - np.sum(temp)` (line 537). -/
def remapGrid (size : ℕ) (pixelArea : ℚ) (short3 : Bool) (params : List ℚ) :
    ℕ × ℕ → ℚ :=
  Function.update (remapT2 size short3 params) (origin size, origin size)
    (1 / pixelArea - sumTot size (remapT2 size short3 params))

/-- `params = temp.flatten()` (line 539): row-major read-out. -/
def remapList (size : ℕ) (pixelArea : ℚ) (short3 : Bool) (params : List ℚ) : List ℚ :=
  (gridPositions size).map (remapGrid size pixelArea short3 params)

/-- The final value of `star.fit.params` after `normalize` (lines 499-546);
`none` models `star.fit.params = None`.  When the vector is short, the legacy
remap runs (short by 3 exactly when `size*size == len(params) + 3`, the only
other possibility the assert admits being short by 1) and `star.fit.params` is
first set to `None`; the rebuilt vector is installed by `newParams` only in the
`not self._fit_flux` branch, which also divides by the sum. -/
def normalizeStarParams (size : ℕ) (pixelArea : ℚ) (fitFlux : Bool)
    (params : List ℚ) : Option (List ℚ) :=
  if params.length < size * size then
    let full := remapList size pixelArea (size * size == params.length + 3) params
    if fitFlux then none
    else some (full.map (fun x => x / full.sum))
  else
    if fitFlux then some params
    else some (params.map (fun x => x / params.sum))

/-! ## The residual, chisq value and dof of `chisq`, and the `fit` update -/

/-- The weighted residual `b`: `data - model` over retained pixels
(`model = image.array.ravel() * star.fit.flux`, line 290; `b = data - model`,
line 307), multiplied by `sqrt(weight)` (line 466). -/
def chisqB (size : ℕ) (scale starFlux : ℚ) (sqrtQ : ℚ → ℚ) (u0 v0 : ℚ)
    (data weight u v model : List ℚ) :
    Fin (maskedIdxs size scale u0 v0 weight u v).length → ℚ :=
  fun i =>
    (data.getD ((maskedIdxs size scale u0 v0 weight u v).get i) 0 -
      model.getD ((maskedIdxs size scale u0 v0 weight u v).get i) 0 * starFlux) *
    sqrtQ (weight.getD ((maskedIdxs size scale u0 v0 weight u v).get i) 0)

/-- `chisq = np.sum(b**2)` (line 467). -/
def chisqVal (size : ℕ) (scale starFlux : ℚ) (sqrtQ : ℚ → ℚ) (u0 v0 : ℚ)
    (data weight u v model : List ℚ) : ℚ :=
  ∑ i, (chisqB size scale starFlux sqrtQ u0 v0 data weight u v model i) ^ 2

/-- `dof = np.count_nonzero(weight)` over the masked weight array (line 468). -/
def chisqDof (size : ℕ) (scale u0 v0 : ℚ) (weight u v : List ℚ) : ℕ :=
  (((maskedIdxs size scale u0 v0 weight u v).map (fun j => weight.getD j 0)).filter
    (fun x => decide (x ≠ 0))).length

/-- `params_var = np.diagonal(scipy.linalg.inv(A.T.dot(A)))`, replaced by the
`1e100` sentinel when the inversion raises `LinAlgError` — in exact arithmetic,
exactly when `det(AᵀA) = 0` (fit, lines 210-217). -/
def fitParamsVar {m n : ℕ} (A : Matrix (Fin m) (Fin n) ℚ) : Fin n → ℚ :=
  if (A.transpose * A).det = 0 then fun _ => (10 : ℚ) ^ 100
  else (((A.transpose * A).det)⁻¹ • (A.transpose * A).adjugate).diag

/-- `new_chisq = star1.fit.chisq + Adp.dot(Adp) - 2 * Adp.dot(star1.fit.b)`
(fit, lines 206-207). -/
def fitNewChisq {m n : ℕ} (A : Matrix (Fin m) (Fin n) ℚ) (b : Fin m → ℚ)
    (chisq0 : ℚ) (dparam : Fin n → ℚ) : ℚ :=
  chisq0 + Matrix.dotProduct (A.mulVec dparam) (A.mulVec dparam)
    - 2 * Matrix.dotProduct (A.mulVec dparam) b

/-- The fit fields of the star returned by `fit` (lines 199-224).  `dparam`
stands for the output of the external least-squares driver
`scipy.linalg.lstsq(A, b, lapack_driver='gelsy')` (line 199). -/
structure FitResult (n : ℕ) where
  params : Option (List ℚ)
  paramsVar : Fin n → ℚ
  chisq : ℚ

/-- `fit` (lines 199-224): install `params + dparam`, attach the variance
diagonal and the quadratic-model chisq, then run `normalize` on the new star. -/
def fitModel (size : ℕ) (pixelArea : ℚ) (fitFlux : Bool) {m : ℕ}
    (A : Matrix (Fin m) (Fin (size * size)) ℚ) (b : Fin m → ℚ) (chisq0 : ℚ)
    (params dparam : Fin (size * size) → ℚ) : FitResult (size * size) :=
  { params := normalizeStarParams size pixelArea fitFlux
      (List.ofFn (fun i => params i + dparam i)),
    paramsVar := fitParamsVar A,
    chisq := fitNewChisq A b chisq0 dparam }

/-! ## The star record (modelled from the spec)

`Star`/`StarFit` live in `star.py`, which is not part of the source tree; the
spec (section 6) specifies "read access to per-pixel data/weight/uv arrays,
current parameter vector, current flux scale and centroid; write access limited
to producing a new record (never in-place pixel mutation)". -/

/-- Modelled from the spec: the star's fit record (`star.py` is missing from
the source tree) — the fields `fit` reads from and never writes. -/
structure StarFitRec where
  params : List ℚ
  flux : ℚ
  center : ℚ × ℚ
  chisq : ℚ

/-- Modelled from the spec: `star.fit.get_params` — read access to the current
parameter vector (spec 6: star record write access is limited to producing a
new record). -/
def getParams (s : StarFitRec) : List ℚ := s.params

/-- The returned star record: its params may be `None` (see `normalize`). -/
structure StarRecOut where
  params : Option (List ℚ)
  flux : ℚ
  center : ℚ × ℚ
  chisq : ℚ

/-- The star-record view of `fit` (lines 199-224): read the input star's
parameters (`params = star.fit.get_params(...)`, line 219), update, build the
new record, normalize it; the result pairs the input star as it stands after
the call with the returned star. -/
def fitStar (size : ℕ) (pixelArea : ℚ) (fitFlux : Bool) {m : ℕ}
    (A : Matrix (Fin m) (Fin (size * size)) ℚ) (b : Fin m → ℚ)
    (dparam : Fin (size * size) → ℚ) (s : StarFitRec) : StarFitRec × StarRecOut :=
  let p := getParams s
  let out := fitModel size pixelArea fitFlux A b s.chisq (fun i => p.getD i 0) dparam
  (s, { params := out.params, flux := s.flux, center := s.center, chisq := out.chisq })

/-! ## `initialize` (lines 116-161) -/

inductive InitMethod where
  | hsm
  | zero
  | delta

/-- `initialize` (lines 131-155): the initial parameter vector for each init
method.  `expQ` abstracts `np.exp`; `sigma` is the hsm size estimate
(`star.hsm[3]`, line 134).  `1.e-10` is modelled as the exact rational
`1/10^10`. -/
def initParams (size : ℕ) (scale : ℚ) (expQ : ℚ → ℚ) (sigma : ℚ) :
    InitMethod → List ℚ
  | .delta =>
      (List.range (size * size)).map
        (fun k => if k = origin size * size + origin size then (1 : ℚ) else 0)
  | m =>
      let g : ℕ × ℕ → ℚ := fun rc =>
        expQ (-((((rc.1 : ℚ) - origin size) * scale) ^ 2 +
            (((rc.2 : ℚ) - origin size) * scale) ^ 2) / (2 * sigma ^ 2))
      let params0 := (gridPositions size).map g
      let params1 := params0.map (fun x => x / params0.sum)
      match m with
      | .zero => params1.map (fun x => x * (1 / 10 ^ 10))
      | _ => params1

/-! ## Lemmas and theorems -/

@[simp] lemma scatter_nil {α : Type} [DecidableEq α] (f : α → ℚ) :
    scatter [] f = f := rfl

lemma scatter_cons {α : Type} [DecidableEq α] (pr : α × ℚ) (ps : List (α × ℚ)) (f : α → ℚ) :
    scatter (pr :: ps) f = scatter ps (Function.update f pr.1 pr.2) := rfl

/-- A key assigned by no pair keeps its initial value. -/
lemma scatter_not_mem {α : Type} [DecidableEq α] :
    ∀ (ps : List (α × ℚ)) (f : α → ℚ) {k : α},
      (∀ pr ∈ ps, pr.1 ≠ k) → scatter ps f k = f k := by
  intro ps
  induction ps with
  | nil => intro f k _; rfl
  | cons pr ps ih =>
      intro f k h
      rw [scatter_cons, ih _ (fun q hq => h q (List.mem_cons_of_mem _ hq))]
      exact Function.update_noteq (fun hkp => h pr (List.mem_cons_self _ _) (by simpa using hkp.symm)) _ f

/-- A key assigned a unique value ends with that value: if `(k, v)` occurs among
the pairs and every pair with key `k` carries value `v`, the scatter yields `v`
at `k`.  (This avoids requiring the keys to be globally distinct.) -/
lemma scatter_mem {α : Type} [DecidableEq α] :
    ∀ (ps : List (α × ℚ)) (f : α → ℚ) {k : α} {v : ℚ},
      (k, v) ∈ ps → (∀ pr ∈ ps, pr.1 = k → pr.2 = v) → scatter ps f k = v := by
  intro ps
  induction ps with
  | nil => intro f k v hmem _; cases hmem
  | cons pr ps ih =>
      intro f k v hmem huniq
      rw [scatter_cons]
      rcases List.mem_cons.mp hmem with heq | htail
      · by_cases htl : ∀ q ∈ ps, q.1 ≠ k
        · rw [scatter_not_mem ps _ htl, ← heq]
          exact Function.update_same _ _ _
        · push_neg at htl
          obtain ⟨q, hq, hqk⟩ := htl
          have hqv : q.2 = v := huniq q (List.mem_cons_of_mem _ hq) hqk
          have : (k, v) ∈ ps := by
            have : q = (k, v) := Prod.ext hqk hqv
            rwa [this] at hq
          exact ih _ this (fun r hr => huniq r (List.mem_cons_of_mem _ hr))
      · exact ih _ htail (fun r hr => huniq r (List.mem_cons_of_mem _ hr))

/-! ### Bounds on the clipped windows -/

lemma origin_le_half (size : ℕ) : (origin size : ℚ) ≤ (size : ℚ) / 2 := by
  have h : 2 * origin size ≤ size := by unfold origin; omega
  have h' := (Nat.cast_le (α := ℚ)).mpr h
  push_cast at h'
  linarith

lemma half_le_origin (size : ℕ) : ((size : ℚ) - 1) / 2 ≤ (origin size : ℚ) := by
  have h : size ≤ 2 * origin size + 1 := by unfold origin; omega
  have h' := (Nat.cast_le (α := ℚ)).mpr h
  push_cast at h'
  linarith

/-- For a retained pixel (`|v| ≤ (size+1)/2` in model-scale units) the unclipped
upper slice bound is nonnegative. -/
lemma i2raw_nonneg (size xr : ℕ) (hxr : 1 ≤ xr) {v : ℚ}
    (hv : |v| ≤ ((size : ℚ) + 1) / 2) : 0 ≤ i2raw size xr ⌊v⌋ := by
  have h1 : -(((size : ℚ) + 1) / 2) ≤ v := (abs_le.mp hv).1
  have h2 : v - 1 < (⌊v⌋ : ℚ) := Int.sub_one_lt_floor v
  have h3 := half_le_origin size
  have hxr' : (1 : ℚ) ≤ (xr : ℚ) := by exact_mod_cast hxr
  have hq : (-1 : ℚ) < ((i2raw size xr ⌊v⌋ : ℤ) : ℚ) := by
    unfold i2raw
    push_cast
    linarith
  have hz : (-1 : ℤ) < i2raw size xr ⌊v⌋ := by exact_mod_cast hq
  omega

/-- For a retained pixel the unclipped lower slice bound is at most `size`. -/
lemma i1raw_le_size (size xr : ℕ) (hxr : 1 ≤ xr) {v : ℚ}
    (hv : |v| ≤ ((size : ℚ) + 1) / 2) : i1raw size xr ⌊v⌋ ≤ size := by
  have h1 : v ≤ ((size : ℚ) + 1) / 2 := (abs_le.mp hv).2
  have h2 : ((⌊v⌋ : ℤ) : ℚ) ≤ v := Int.floor_le v
  have h3 := origin_le_half size
  have hxr' : (1 : ℚ) ≤ (xr : ℚ) := by exact_mod_cast hxr
  have hq : ((i1raw size xr ⌊v⌋ : ℤ) : ℚ) < (size : ℚ) + 1 := by
    unfold i1raw
    push_cast
    linarith
  have hz : i1raw size xr ⌊v⌋ < (size : ℤ) + 1 := by exact_mod_cast hq
  omega

lemma i2raw_sub_i1raw (size xr : ℕ) (vi : ℤ) :
    i2raw size xr vi - i1raw size xr vi = 2 * (xr : ℤ) := by
  unfold i1raw i2raw; ring

/-- The clipped slices are in-bounds and source and destination have equal
lengths (chisq lines 427-447). -/
lemma window_bounds (size xr : ℕ) (vi : ℤ)
    (h0 : 0 ≤ i2raw size xr vi) (hs : i1raw size xr vi ≤ size) :
    0 ≤ i1c size xr vi ∧ i1c size xr vi ≤ i2c size xr vi ∧ i2c size xr vi ≤ size ∧
    i2c size xr vi - i1c size xr vi = p2c size xr vi - p1c size xr vi ∧
    0 ≤ p1c size xr vi ∧ p2c size xr vi ≤ 2 * xr := by
  have hraw := i2raw_sub_i1raw size xr vi
  unfold i1c i2c p1c p2c
  split_ifs <;> omega

/-- The clip preserves the difference between the data index and the source
index: `p1 - i1 = -(vi - xr + origin + 1)` whether or not the clip fired. -/
lemma p1c_sub_i1c (size xr : ℕ) (vi : ℤ) :
    p1c size xr vi - i1c size xr vi = -(i1raw size xr vi) := by
  unfold i1c p1c
  split_ifs <;> omega

/-- Clipping only removes rows/columns outside `[0, size)`: for `0 ≤ x < size`,
membership in the clipped slice and in the unclipped slice agree. -/
lemma mem_clipped_iff (size xr : ℕ) (vi x : ℤ) (hx0 : 0 ≤ x) (hxs : x < size) :
    (i1c size xr vi ≤ x ∧ x < i2c size xr vi) ↔
    (i1raw size xr vi ≤ x ∧ x < i2raw size xr vi) := by
  unfold i1c i2c
  split_ifs <;> omega

/-! ### Decomposing the flat column index

`col_index[r, c] = r*size + c` (line 414), so a flat index `k < size*size`
corresponds to grid row `k / size` and column `k % size`. -/

lemma nat_key_div (size : ℕ) (hsize : 0 < size) (X Y : ℕ) (hY : Y < size) :
    (X * size + Y) / size = X ∧ (X * size + Y) % size = Y := by
  constructor
  · rw [mul_comm, Nat.mul_add_div hsize, Nat.div_eq_of_lt hY, Nat.add_zero]
  · rw [mul_comm, Nat.mul_add_mod, Nat.mod_eq_of_lt hY]

lemma key_eq_components (size : ℕ) (hsize : 0 < size) {x y : ℤ} {k : ℕ}
    (hx0 : 0 ≤ x) (hxs : x < size) (hy0 : 0 ≤ y) (hys : y < size)
    (hkey : (x * size + y).toNat = k) :
    x = (k / size : ℕ) ∧ y = (k % size : ℕ) := by
  obtain ⟨X, rfl⟩ := Int.eq_ofNat_of_zero_le hx0
  obtain ⟨Y, rfl⟩ := Int.eq_ofNat_of_zero_le hy0
  have h1 : ((X : ℤ) * size + Y) = ((X * size + Y : ℕ) : ℤ) := by push_cast; ring
  rw [h1, Int.toNat_natCast] at hkey
  have hY : Y < size := by exact_mod_cast hys
  obtain ⟨hd, hm⟩ := nat_key_div size hsize X Y hY
  subst hkey
  refine ⟨?_, ?_⟩
  · exact_mod_cast hd.symm
  · exact_mod_cast hm.symm

/-- Every pair produced by `rowPairs` arises from in-range offsets `a`, `b`. -/
lemma rowPairs_mem_elim {size xr : ℕ} {ui vi : ℤ} {w : ℤ → ℤ → ℚ} {pr : ℕ × ℚ}
    (h : pr ∈ rowPairs size xr ui vi w) :
    ∃ a b : ℕ, (a : ℤ) < i2c size xr vi - i1c size xr vi ∧
      (b : ℤ) < i2c size xr ui - i1c size xr ui ∧
      pr = (((i1c size xr vi + a) * size + (i1c size xr ui + b)).toNat,
            w (p1c size xr vi + a) (p1c size xr ui + b)) := by
  unfold rowPairs at h
  obtain ⟨a, ha, h2⟩ := List.mem_flatMap.mp h
  obtain ⟨b, hb, h3⟩ := List.mem_map.mp h2
  have ha' := List.mem_range.mp ha
  have hb' := List.mem_range.mp hb
  exact ⟨a, b, by omega, by omega, h3.symm⟩

/-- All columns written by the scatter are in `[0, nParams)`. -/
lemma rowPairs_key_lt (size xr : ℕ) (ui vi : ℤ) (w : ℤ → ℤ → ℚ)
    (hsize : 0 < size)
    (hu0 : 0 ≤ i2raw size xr ui) (hus : i1raw size xr ui ≤ size)
    (hv0 : 0 ≤ i2raw size xr vi) (hvs : i1raw size xr vi ≤ size) :
    ∀ pr ∈ rowPairs size xr ui vi w, pr.1 < size * size := by
  intro pr hpr
  obtain ⟨a, b, ha, hb, rfl⟩ := rowPairs_mem_elim hpr
  obtain ⟨hv1, _, hv3, _, _, _⟩ := window_bounds size xr vi hv0 hvs
  obtain ⟨hu1, _, hu3, _, _, _⟩ := window_bounds size xr ui hu0 hus
  have hx0 : 0 ≤ i1c size xr vi + a := by positivity
  have hy0 : 0 ≤ i1c size xr ui + b := by positivity
  have hxs : i1c size xr vi + a < size := by omega
  have hys : i1c size xr ui + b < size := by omega
  have hkeylt : (i1c size xr vi + a) * size + (i1c size xr ui + b) < (size : ℤ) * size := by
    calc (i1c size xr vi + a) * size + (i1c size xr ui + b)
        < (i1c size xr vi + a) * size + size := by omega
      _ = (i1c size xr vi + a + 1) * size := by ring
      _ ≤ (size : ℤ) * size := by
          apply mul_le_mul_of_nonneg_right _ (by positivity)
          omega
  have hkey0 : 0 ≤ (i1c size xr vi + a) * size + (i1c size xr ui + b) := by
    have : 0 ≤ (i1c size xr vi + a) * size := mul_nonneg hx0 (by positivity)
    omega
  have h1 : ((((i1c size xr vi + a) * size + (i1c size xr ui + b)).toNat : ℤ)) <
      ((size * size : ℕ) : ℤ) := by
    rw [Int.toNat_of_nonneg hkey0]
    push_cast
    exact hkeylt
  exact_mod_cast h1

/-- Columns outside the grid (`k ≥ size*size`) are never written. -/
lemma Arow_eq_zero_of_ge (size : ℕ) (K : Kernel) (fs u v : ℚ)
    (hsize : 0 < size)
    (hu0 : 0 ≤ i2raw size K.xr ⌊u⌋) (hus : i1raw size K.xr ⌊u⌋ ≤ size)
    (hv0 : 0 ≤ i2raw size K.xr ⌊v⌋) (hvs : i1raw size K.xr ⌊v⌋ ≤ size)
    {k : ℕ} (hk : ¬ k < size * size) :
    Arow size K fs u v k = 0 := by
  unfold Arow
  apply scatter_not_mem
  intro pr hpr
  have := rowPairs_key_lt size K.xr ⌊u⌋ ⌊v⌋ _ hsize hu0 hus hv0 hvs pr hpr
  omega

/-- Characterization of the fast-path row: entry `k < size*size` is the
windowed outer-product weight when grid cell `(k / size, k % size)` lies in the
pixel's unclipped support window, and zero otherwise (the clip never removes a
cell of the grid, only out-of-grid window positions). -/
lemma Arow_char (size : ℕ) (K : Kernel) (fs u v : ℚ)
    (hsize : 0 < size)
    (hu0 : 0 ≤ i2raw size K.xr ⌊u⌋) (hus : i1raw size K.xr ⌊u⌋ ≤ size)
    (hv0 : 0 ≤ i2raw size K.xr ⌊v⌋) (hvs : i1raw size K.xr ⌊v⌋ ≤ size)
    {k : ℕ} (hk : k < size * size) :
    Arow size K fs u v k =
      if i1raw size K.xr ⌊v⌋ ≤ ((k / size : ℕ) : ℤ) ∧
         ((k / size : ℕ) : ℤ) < i2raw size K.xr ⌊v⌋ ∧
         i1raw size K.xr ⌊u⌋ ≤ ((k % size : ℕ) : ℤ) ∧
         ((k % size : ℕ) : ℤ) < i2raw size K.xr ⌊u⌋
      then uwt K fs u (((k % size : ℕ) : ℤ) - i1raw size K.xr ⌊u⌋) *
           vwt K v (((k / size : ℕ) : ℤ) - i1raw size K.xr ⌊v⌋)
      else 0 := by
  obtain ⟨hv1, hv2, hv3, hv4, hv5, hv6⟩ := window_bounds size K.xr ⌊v⌋ hv0 hvs
  obtain ⟨hu1, hu2, hu3, hu4, hu5, hu6⟩ := window_bounds size K.xr ⌊u⌋ hu0 hus
  have hpv := p1c_sub_i1c size K.xr ⌊v⌋
  have hpu := p1c_sub_i1c size K.xr ⌊u⌋
  have hc : k % size < size := Nat.mod_lt _ hsize
  have hr : k / size < size := Nat.div_lt_of_lt_mul hk
  have hdm : ((k / size : ℕ) : ℤ) * (size : ℤ) + ((k % size : ℕ) : ℤ) = (k : ℤ) := by
    have h := Nat.div_add_mod k size
    calc ((k / size : ℕ) : ℤ) * (size : ℤ) + ((k % size : ℕ) : ℤ)
        = ((size * (k / size) + k % size : ℕ) : ℤ) := by push_cast; ring
      _ = (k : ℤ) := by rw [h]
  unfold Arow
  by_cases hwin : i1raw size K.xr ⌊v⌋ ≤ ((k / size : ℕ) : ℤ) ∧
      ((k / size : ℕ) : ℤ) < i2raw size K.xr ⌊v⌋ ∧
      i1raw size K.xr ⌊u⌋ ≤ ((k % size : ℕ) : ℤ) ∧
      ((k % size : ℕ) : ℤ) < i2raw size K.xr ⌊u⌋
  · rw [if_pos hwin]
    obtain ⟨hw1, hw2, hw3, hw4⟩ := hwin
    have hrc := (mem_clipped_iff size K.xr ⌊v⌋ ((k / size : ℕ) : ℤ) (by positivity)
      (by exact_mod_cast hr)).mpr ⟨hw1, hw2⟩
    have hcc := (mem_clipped_iff size K.xr ⌊u⌋ ((k % size : ℕ) : ℤ) (by positivity)
      (by exact_mod_cast hc)).mpr ⟨hw3, hw4⟩
    apply scatter_mem
    · set a := (((k / size : ℕ) : ℤ) - i1c size K.xr ⌊v⌋).toNat with ha_def
      set b := (((k % size : ℕ) : ℤ) - i1c size K.xr ⌊u⌋).toNat with hb_def
      unfold rowPairs
      refine List.mem_flatMap.mpr ⟨a, List.mem_range.mpr (by omega),
        List.mem_map.mpr ⟨b, List.mem_range.mpr (by omega), ?_⟩⟩
      have h1 : i1c size K.xr ⌊v⌋ + (a : ℤ) = ((k / size : ℕ) : ℤ) := by omega
      have h2 : i1c size K.xr ⌊u⌋ + (b : ℤ) = ((k % size : ℕ) : ℤ) := by omega
      have hkey : ((i1c size K.xr ⌊v⌋ + (a : ℤ)) * size +
          (i1c size K.xr ⌊u⌋ + (b : ℤ))).toNat = k := by
        rw [h1, h2, hdm, Int.toNat_natCast]
      have hq : p1c size K.xr ⌊u⌋ + (b : ℤ) = ((k % size : ℕ) : ℤ) - i1raw size K.xr ⌊u⌋ := by
        omega
      have hp : p1c size K.xr ⌊v⌋ + (a : ℤ) = ((k / size : ℕ) : ℤ) - i1raw size K.xr ⌊v⌋ := by
        omega
      exact Prod.ext hkey (by rw [hp, hq])
    · intro pr hpr hprk
      obtain ⟨a', b', ha', hb', rfl⟩ := rowPairs_mem_elim hpr
      have hx0 : 0 ≤ i1c size K.xr ⌊v⌋ + (a' : ℤ) := by positivity
      have hy0 : 0 ≤ i1c size K.xr ⌊u⌋ + (b' : ℤ) := by positivity
      have hxs : i1c size K.xr ⌊v⌋ + (a' : ℤ) < size := by omega
      have hys : i1c size K.xr ⌊u⌋ + (b' : ℤ) < size := by omega
      obtain ⟨hxx, hyy⟩ := key_eq_components size hsize hx0 hxs hy0 hys hprk
      have hp' : p1c size K.xr ⌊v⌋ + (a' : ℤ) =
          ((k / size : ℕ) : ℤ) - i1raw size K.xr ⌊v⌋ := by omega
      have hq' : p1c size K.xr ⌊u⌋ + (b' : ℤ) =
          ((k % size : ℕ) : ℤ) - i1raw size K.xr ⌊u⌋ := by omega
      show uwt K fs u (p1c size K.xr ⌊u⌋ + (b' : ℤ)) * vwt K v (p1c size K.xr ⌊v⌋ + (a' : ℤ)) = _
      rw [hp', hq']
  · rw [if_neg hwin]
    apply scatter_not_mem
    intro pr hpr hprk
    obtain ⟨a', b', ha', hb', rfl⟩ := rowPairs_mem_elim hpr
    have hx0 : 0 ≤ i1c size K.xr ⌊v⌋ + (a' : ℤ) := by positivity
    have hy0 : 0 ≤ i1c size K.xr ⌊u⌋ + (b' : ℤ) := by positivity
    have hxs : i1c size K.xr ⌊v⌋ + (a' : ℤ) < size := by omega
    have hys : i1c size K.xr ⌊u⌋ + (b' : ℤ) < size := by omega
    obtain ⟨hxx, hyy⟩ := key_eq_components size hsize hx0 hxs hy0 hys hprk
    have hrwin := (mem_clipped_iff size K.xr ⌊v⌋ ((k / size : ℕ) : ℤ) (by positivity)
      (by exact_mod_cast hr)).mp ⟨by omega, by omega⟩
    have hcwin := (mem_clipped_iff size K.xr ⌊u⌋ ((k % size : ℕ) : ℤ) (by positivity)
      (by exact_mod_cast hc)).mp ⟨by omega, by omega⟩
    exact hwin ⟨hrwin.1, hrwin.2, hcwin.1, hcwin.2⟩

/-! ### The fast separable path agrees with the naive path -/

lemma i1raw_cast (size xr : ℕ) (vi : ℤ) :
    ((i1raw size xr vi : ℤ) : ℚ) = (vi : ℚ) - xr + origin size + 1 := by
  unfold i1raw; push_cast; ring

lemma i2raw_cast (size xr : ℕ) (vi : ℤ) :
    ((i2raw size xr vi : ℤ) : ℚ) = (vi : ℚ) + xr + origin size + 1 := by
  unfold i2raw; push_cast; ring

/-- Pointwise agreement of the fast separable row construction with the naive
per-basis-pixel entry, for a retained pixel (one passing the
`|u| ≤ maxuv`, `|v| ≤ maxuv` mask, here in model-scale units), for any
symmetric kernel vanishing outside its support radius. -/
lemma Arow_eq_naive (size : ℕ) (K : Kernel) (fs u v : ℚ)
    (hsize : 0 < size) (hxr : 1 ≤ K.xr) (hsupp : K.SuppOK) (hsym : K.Symm)
    (hu : |u| ≤ ((size : ℚ) + 1) / 2) (hv : |v| ≤ ((size : ℚ) + 1) / 2) (k : ℕ) :
    Arow size K fs u v k = ArowNaive size K fs u v k := by
  have hu0 := i2raw_nonneg size K.xr hxr hu
  have hus := i1raw_le_size size K.xr hxr hu
  have hv0 := i2raw_nonneg size K.xr hxr hv
  have hvs := i1raw_le_size size K.xr hxr hv
  have hfu : (⌊u⌋ : ℚ) + Int.fract u = u := Int.floor_add_fract u
  have hfv : (⌊v⌋ : ℚ) + Int.fract v = v := Int.floor_add_fract v
  have hfu0 : 0 ≤ Int.fract u := Int.fract_nonneg u
  have hfu1 : Int.fract u < 1 := Int.fract_lt_one u
  have hfv0 : 0 ≤ Int.fract v := Int.fract_nonneg v
  have hfv1 : Int.fract v < 1 := Int.fract_lt_one v
  by_cases hk : k < size * size
  · rw [Arow_char size K fs u v hsize hu0 hus hv0 hvs hk]
    rw [ArowNaive, if_pos hk]
    by_cases hwin : i1raw size K.xr ⌊v⌋ ≤ ((k / size : ℕ) : ℤ) ∧
        ((k / size : ℕ) : ℤ) < i2raw size K.xr ⌊v⌋ ∧
        i1raw size K.xr ⌊u⌋ ≤ ((k % size : ℕ) : ℤ) ∧
        ((k % size : ℕ) : ℤ) < i2raw size K.xr ⌊u⌋
    · rw [if_pos hwin]
      unfold uwt vwt
      have hargu : -(Int.fract u) +
          (((((k % size : ℕ) : ℤ) - i1raw size K.xr ⌊u⌋ : ℤ) : ℚ) - K.xr + 1) =
          (((k % size : ℕ) : ℚ) - origin size) - u := by
        rw [Int.cast_sub, i1raw_cast, Int.cast_natCast]
        linarith
      have hargv : -(Int.fract v) +
          (((((k / size : ℕ) : ℤ) - i1raw size K.xr ⌊v⌋ : ℤ) : ℚ) - K.xr + 1) =
          (((k / size : ℕ) : ℚ) - origin size) - v := by
        rw [Int.cast_sub, i1raw_cast, Int.cast_natCast]
        linarith
      rw [hargu, hargv]
      have h1 : K.xval (u - (((k % size : ℕ) : ℚ) - origin size)) =
          K.xval ((((k % size : ℕ) : ℚ) - origin size) - u) := by
        rw [show u - (((k % size : ℕ) : ℚ) - origin size) =
          -((((k % size : ℕ) : ℚ) - origin size) - u) by ring, hsym]
      have h2 : K.xval (v - (((k / size : ℕ) : ℚ) - origin size)) =
          K.xval ((((k / size : ℕ) : ℚ) - origin size) - v) := by
        rw [show v - (((k / size : ℕ) : ℚ) - origin size) =
          -((((k / size : ℕ) : ℚ) - origin size) - v) by ring, hsym]
      rw [h1, h2]
    · rw [if_neg hwin]
      have hcases : ¬ (i1raw size K.xr ⌊v⌋ ≤ ((k / size : ℕ) : ℤ)) ∨
          ¬ (((k / size : ℕ) : ℤ) < i2raw size K.xr ⌊v⌋) ∨
          ¬ (i1raw size K.xr ⌊u⌋ ≤ ((k % size : ℕ) : ℤ)) ∨
          ¬ (((k % size : ℕ) : ℤ) < i2raw size K.xr ⌊u⌋) := by tauto
      have hflo_u : (⌊u⌋ : ℚ) ≤ u := Int.floor_le u
      have hflo_u' : u - 1 < (⌊u⌋ : ℚ) := Int.sub_one_lt_floor u
      have hflo_v : (⌊v⌋ : ℚ) ≤ v := Int.floor_le v
      have hflo_v' : v - 1 < (⌊v⌋ : ℚ) := Int.sub_one_lt_floor v
      rcases hcases with hcase | hcase | hcase | hcase
      · -- grid row below the window: the v weight vanishes
        have hq : ((k / size : ℕ) : ℚ) ≤ (⌊v⌋ : ℚ) - K.xr + origin size := by
          have h1 : ((k / size : ℕ) : ℤ) ≤ i1raw size K.xr ⌊v⌋ - 1 := by omega
          have h2 : ((((k / size : ℕ) : ℤ)) : ℚ) ≤ ((i1raw size K.xr ⌊v⌋ - 1 : ℤ) : ℚ) := by
            exact_mod_cast h1
          rw [Int.cast_sub, i1raw_cast, Int.cast_natCast, Int.cast_one] at h2
          linarith
        have hz : K.xval (v - (((k / size : ℕ) : ℚ) - origin size)) = 0 := by
          apply hsupp
          have ht : (K.xr : ℚ) ≤ v - (((k / size : ℕ) : ℚ) - origin size) := by linarith
          exact le_trans ht (le_abs_self _)
        rw [hz, mul_zero]
      · -- grid row above the window
        have hq : (⌊v⌋ : ℚ) + K.xr + origin size + 1 ≤ ((k / size : ℕ) : ℚ) := by
          have h1 : i2raw size K.xr ⌊v⌋ ≤ ((k / size : ℕ) : ℤ) := by omega
          have h2 : ((i2raw size K.xr ⌊v⌋ : ℤ) : ℚ) ≤ ((((k / size : ℕ) : ℤ)) : ℚ) := by
            exact_mod_cast h1
          rw [i2raw_cast, Int.cast_natCast] at h2
          linarith
        have hz : K.xval (v - (((k / size : ℕ) : ℚ) - origin size)) = 0 := by
          apply hsupp
          have ht : (K.xr : ℚ) ≤ -(v - (((k / size : ℕ) : ℚ) - origin size)) := by linarith
          exact le_trans ht (neg_le_abs _)
        rw [hz, mul_zero]
      · -- grid column below the window: the u weight vanishes
        have hq : ((k % size : ℕ) : ℚ) ≤ (⌊u⌋ : ℚ) - K.xr + origin size := by
          have h1 : ((k % size : ℕ) : ℤ) ≤ i1raw size K.xr ⌊u⌋ - 1 := by omega
          have h2 : ((((k % size : ℕ) : ℤ)) : ℚ) ≤ ((i1raw size K.xr ⌊u⌋ - 1 : ℤ) : ℚ) := by
            exact_mod_cast h1
          rw [Int.cast_sub, i1raw_cast, Int.cast_natCast, Int.cast_one] at h2
          linarith
        have hz : K.xval (u - (((k % size : ℕ) : ℚ) - origin size)) = 0 := by
          apply hsupp
          have ht : (K.xr : ℚ) ≤ u - (((k % size : ℕ) : ℚ) - origin size) := by linarith
          exact le_trans ht (le_abs_self _)
        rw [hz, mul_zero, zero_mul]
      · -- grid column above the window
        have hq : (⌊u⌋ : ℚ) + K.xr + origin size + 1 ≤ ((k % size : ℕ) : ℚ) := by
          have h1 : i2raw size K.xr ⌊u⌋ ≤ ((k % size : ℕ) : ℤ) := by omega
          have h2 : ((i2raw size K.xr ⌊u⌋ : ℤ) : ℚ) ≤ ((((k % size : ℕ) : ℤ)) : ℚ) := by
            exact_mod_cast h1
          rw [i2raw_cast, Int.cast_natCast] at h2
          linarith
        have hz : K.xval (u - (((k % size : ℕ) : ℚ) - origin size)) = 0 := by
          apply hsupp
          have ht : (K.xr : ℚ) ≤ -(u - (((k % size : ℕ) : ℚ) - origin size)) := by linarith
          exact le_trans ht (neg_le_abs _)
        rw [hz, mul_zero, zero_mul]
  · rw [Arow_eq_zero_of_ge size K fs u v hsize hu0 hus hv0 hvs hk,
      ArowNaive, if_neg hk]

lemma mem_maskedIdxs {size : ℕ} {scale u0 v0 : ℚ} {weight u v : List ℚ} {i : ℕ} :
    i ∈ maskedIdxs size scale u0 v0 weight u v ↔
      i < weight.length ∧ |u.getD i 0 - u0| ≤ maxuv size scale ∧
      |v.getD i 0 - v0| ≤ maxuv size scale ∧ weight.getD i 0 ≠ 0 := by
  unfold maskedIdxs
  simp [List.mem_filter, List.mem_range, and_assoc]

lemma mask_scaled (size : ℕ) {scale x : ℚ} (hscale : 0 < scale)
    (hx : |x| ≤ maxuv size scale) : |x / scale| ≤ ((size : ℚ) + 1) / 2 := by
  rw [abs_div, abs_of_pos hscale, div_le_iff₀ hscale]
  unfold maxuv at hx
  exact hx

/-- C1: for a star with no composition function, the design matrix built by
chisq's fast separable path (1-D kernel evaluations, outer product, clipped
scatter) equals the one built by the slow per-basis-pixel path, exactly, for
every grid size, scale, and symmetric finite-support kernel. -/
theorem chisq_fast_matrix_eq_naive (size : ℕ) (K : Kernel)
    (scale fluxScaling starFlux : ℚ) (sqrtQ : ℚ → ℚ) (u0 v0 : ℚ)
    (weight u v : List ℚ)
    (hsize : 0 < size) (hscale : 0 < scale) (hxr : 1 ≤ K.xr)
    (hsupp : K.SuppOK) (hsym : K.Symm) :
    chisqA size K scale fluxScaling starFlux sqrtQ u0 v0 weight u v =
    chisqANaive size K scale fluxScaling starFlux sqrtQ u0 v0 weight u v := by
  ext i k
  have hmem : (maskedIdxs size scale u0 v0 weight u v).get i ∈
      maskedIdxs size scale u0 v0 weight u v :=
    List.get_mem _ i.1 i.2
  rw [mem_maskedIdxs] at hmem
  obtain ⟨-, hu', hv', -⟩ := hmem
  have hu2 := mask_scaled size hscale hu'
  have hv2 := mask_scaled size hscale hv'
  show Arow size K fluxScaling _ _ k * starFlux * sqrtQ _ =
    ArowNaive size K fluxScaling _ _ k * starFlux * sqrtQ _
  rw [Arow_eq_naive size K fluxScaling _ _ hsize hxr hsupp hsym hu2 hv2 k]

lemma linKernel_supp : linKernel.SuppOK := by
  intro t ht
  have h1 : (1 : ℚ) ≤ |t| := by exact_mod_cast ht
  show (if |t| < 1 then 1 - |t| else 0) = 0
  rw [if_neg (not_lt.mpr h1)]

lemma linKernel_symm : linKernel.Symm := by
  intro t
  show (if |(-t)| < 1 then 1 - |(-t)| else 0) = (if |t| < 1 then 1 - |t| else 0)
  rw [abs_neg]

/-- Witness for C1: a concrete 5×5 grid at scale 1/5, the triangular kernel,
and a one-pixel star. -/
theorem chisq_fast_matrix_eq_naive_witness :
    chisqA 5 linKernel (1/5) 1 1 (fun x => x) 0 0 [1] [3/50] [-(7/50)] =
    chisqANaive 5 linKernel (1/5) 1 1 (fun x => x) 0 0 [1] [3/50] [-(7/50)] :=
  chisq_fast_matrix_eq_naive 5 linKernel (1/5) 1 1 (fun x => x) 0 0 [1] [3/50] [-(7/50)]
    (by norm_num) (by norm_num) (le_refl 1) linKernel_supp linKernel_symm

/-- C10: for a retained pixel, the boundary-clipped windows satisfy
`0 ≤ i1 ≤ i2 ≤ size` and `0 ≤ j1 ≤ j2 ≤ size`, the clipped source and
destination slices have equal lengths (`i2-i1 = p2-p1`, `j2-j1 = q2-q1`, with
the source slices inside `[0, 2*xr)`), and the scatter writes only column
indices in `[0, nParams)`. -/
theorem chisq_window_safety (size xr : ℕ) (scale u v : ℚ) (w : ℤ → ℤ → ℚ)
    (hsize : 0 < size) (hxr : 1 ≤ xr) (hscale : 0 < scale)
    (hu : |u| ≤ maxuv size scale) (hv : |v| ≤ maxuv size scale) :
    (0 ≤ i1c size xr ⌊v / scale⌋ ∧ i1c size xr ⌊v / scale⌋ ≤ i2c size xr ⌊v / scale⌋ ∧
     i2c size xr ⌊v / scale⌋ ≤ size ∧
     i2c size xr ⌊v / scale⌋ - i1c size xr ⌊v / scale⌋ =
       p2c size xr ⌊v / scale⌋ - p1c size xr ⌊v / scale⌋ ∧
     0 ≤ p1c size xr ⌊v / scale⌋ ∧ p2c size xr ⌊v / scale⌋ ≤ 2 * xr) ∧
    (0 ≤ i1c size xr ⌊u / scale⌋ ∧ i1c size xr ⌊u / scale⌋ ≤ i2c size xr ⌊u / scale⌋ ∧
     i2c size xr ⌊u / scale⌋ ≤ size ∧
     i2c size xr ⌊u / scale⌋ - i1c size xr ⌊u / scale⌋ =
       p2c size xr ⌊u / scale⌋ - p1c size xr ⌊u / scale⌋ ∧
     0 ≤ p1c size xr ⌊u / scale⌋ ∧ p2c size xr ⌊u / scale⌋ ≤ 2 * xr) ∧
    (∀ pr ∈ rowPairs size xr ⌊u / scale⌋ ⌊v / scale⌋ w, pr.1 < size * size) := by
  have hu2 := mask_scaled size hscale hu
  have hv2 := mask_scaled size hscale hv
  have hu0 := i2raw_nonneg size xr hxr hu2
  have hus := i1raw_le_size size xr hxr hu2
  have hv0 := i2raw_nonneg size xr hxr hv2
  have hvs := i1raw_le_size size xr hxr hv2
  exact ⟨window_bounds size xr ⌊v / scale⌋ hv0 hvs,
    window_bounds size xr ⌊u / scale⌋ hu0 hus,
    rowPairs_key_lt size xr ⌊u / scale⌋ ⌊v / scale⌋ w hsize hu0 hus hv0 hvs⟩

/-- Witness for C10 at size 5, xr 7 (Lanczos(7)), scale 1/5, a concrete pixel. -/
theorem chisq_window_safety_witness :
    0 ≤ i1c 5 7 ⌊(-(7/50) : ℚ) / (1/5)⌋ ∧
    i1c 5 7 ⌊(-(7/50) : ℚ) / (1/5)⌋ ≤ i2c 5 7 ⌊(-(7/50) : ℚ) / (1/5)⌋ ∧
    i2c 5 7 ⌊(-(7/50) : ℚ) / (1/5)⌋ ≤ ((5 : ℕ) : ℤ) ∧
    i2c 5 7 ⌊(-(7/50) : ℚ) / (1/5)⌋ - i1c 5 7 ⌊(-(7/50) : ℚ) / (1/5)⌋ =
      p2c 5 7 ⌊(-(7/50) : ℚ) / (1/5)⌋ - p1c 5 7 ⌊(-(7/50) : ℚ) / (1/5)⌋ ∧
    0 ≤ p1c 5 7 ⌊(-(7/50) : ℚ) / (1/5)⌋ ∧
    p2c 5 7 ⌊(-(7/50) : ℚ) / (1/5)⌋ ≤ 2 * ((7 : ℕ) : ℤ) :=
  (chisq_window_safety 5 7 (1/5) (3/50) (-(7/50)) (fun _ _ => 0)
    (by norm_num) (by norm_num) (by norm_num) (by norm_num [maxuv, abs_le])
    (by norm_num [maxuv, abs_le])).1

/-! ### Sum bookkeeping for the remap -/

lemma sum_mul_update (s : Finset (ℕ × ℕ)) (c f : ℕ × ℕ → ℚ) (a : ℕ × ℕ) (x : ℚ)
    (ha : a ∈ s) :
    ∑ p in s, c p * Function.update f a x p =
      (∑ p in s, c p * f p) + c a * x - c a * f a := by
  have key : ∀ p ∈ s, c p * Function.update f a x p =
      (if p = a then c a * x - c a * f a else 0) + c p * f p := by
    intro p _
    by_cases hpa : p = a
    · subst hpa; rw [Function.update_same, if_pos rfl]; ring
    · rw [Function.update_noteq hpa, if_neg hpa]; ring
  rw [Finset.sum_congr rfl key, Finset.sum_add_distrib,
    Finset.sum_ite_eq' s a (fun _ => c a * x - c a * f a), if_pos ha]
  ring

lemma sum_update (s : Finset (ℕ × ℕ)) (f : ℕ × ℕ → ℚ) (a : ℕ × ℕ) (x : ℚ)
    (ha : a ∈ s) :
    ∑ p in s, Function.update f a x p = (∑ p in s, f p) + x - f a := by
  have h := sum_mul_update s (fun _ => 1) f a x ha
  simpa using h

/-- Cells reserved from the mask keep their initial zero in `temp[mask] = params`. -/
lemma remapT0_reserved_zero (size : ℕ) (short3 : Bool) (params : List ℚ)
    {rc : ℕ × ℕ} (hrc : rc ∈ reservedCells size short3) :
    remapT0 size short3 params rc = 0 := by
  apply scatter_not_mem
  intro pr hpr
  have h1 := (List.of_mem_zip hpr).1
  have h2 := (List.mem_filter.mp h1).2
  simp only [decide_eq_true_eq] at h2
  intro he
  exact h2 (by rw [he]; exact hrc)

lemma gridPositions_length (size : ℕ) : (gridPositions size).length = size * size := by
  unfold gridPositions
  rw [List.length_flatMap]
  rw [show (List.map (List.length ∘ fun r : ℕ => List.map (fun c : ℕ => (r, c))
      (List.range size)) (List.range size)) = List.map (fun _ => size) (List.range size)
    from List.map_congr_left (fun a _ => by simp [Function.comp])]
  rw [List.map_const', List.sum_replicate, List.length_range, smul_eq_mul]

lemma sumV_update (size : ℕ) (f : ℕ × ℕ → ℚ) (a : ℕ × ℕ) (x : ℚ)
    (ha : a ∈ gridFinset size) :
    sumV size (Function.update f a x) =
      sumV size f + ((a.1 : ℚ) - origin size) * x - ((a.1 : ℚ) - origin size) * f a :=
  sum_mul_update (gridFinset size) (fun p => ((p.1 : ℚ) - origin size)) f a x ha

lemma sumU_update (size : ℕ) (f : ℕ × ℕ → ℚ) (a : ℕ × ℕ) (x : ℚ)
    (ha : a ∈ gridFinset size) :
    sumU size (Function.update f a x) =
      sumU size f + ((a.2 : ℚ) - origin size) * x - ((a.2 : ℚ) - origin size) * f a :=
  sum_mul_update (gridFinset size) (fun p => ((p.2 : ℚ) - origin size)) f a x ha

lemma sumTot_update (size : ℕ) (f : ℕ × ℕ → ℚ) (a : ℕ × ℕ) (x : ℚ)
    (ha : a ∈ gridFinset size) :
    sumTot size (Function.update f a x) = sumTot size f + x - f a :=
  sum_update (gridFinset size) f a x ha

/-- C2: the backward-compatibility remap of a vector short by 3 yields a
full-size grid whose first moment vanishes exactly along both axes, and whose
central value is `1/pixelArea` minus the sum of all the other values. -/
theorem normalize_legacy_remap_centroid (size : ℕ) (pixelArea : ℚ) (params : List ℚ)
    (hsize : 3 ≤ size) (hlen : params.length = size * size - 3) :
    sumV size (remapGrid size pixelArea true params) = 0 ∧
    sumU size (remapGrid size pixelArea true params) = 0 ∧
    remapGrid size pixelArea true params (origin size, origin size) =
      1 / pixelArea -
        (sumTot size (remapGrid size pixelArea true params) -
          remapGrid size pixelArea true params (origin size, origin size)) ∧
    (remapList size pixelArea true params).length = size * size := by
  have ho0 : origin size < size := by unfold origin; omega
  have ho1 : origin size + 1 < size := by unfold origin; omega
  have hoin : ((origin size, origin size) : ℕ × ℕ) ∈ gridFinset size := by
    simp only [gridFinset, Finset.mem_product, Finset.mem_range]
    exact ⟨ho0, ho0⟩
  have hvin : ((origin size + 1, origin size) : ℕ × ℕ) ∈ gridFinset size := by
    simp only [gridFinset, Finset.mem_product, Finset.mem_range]
    exact ⟨ho1, ho0⟩
  have huin : ((origin size, origin size + 1) : ℕ × ℕ) ∈ gridFinset size := by
    simp only [gridFinset, Finset.mem_product, Finset.mem_range]
    exact ⟨ho0, ho1⟩
  have hz1 : remapT0 size true params (origin size + 1, origin size) = 0 :=
    remapT0_reserved_zero size true params (by simp [reservedCells])
  have hz2 : remapT0 size true params (origin size, origin size + 1) = 0 :=
    remapT0_reserved_zero size true params (by simp [reservedCells])
  have hz3 : remapT0 size true params (origin size, origin size) = 0 :=
    remapT0_reserved_zero size true params (by simp [reservedCells])
  have e1 : remapT1 size true params = Function.update (remapT0 size true params)
      (origin size + 1, origin size) (-(sumV size (remapT0 size true params))) := by
    unfold remapT1
    rw [if_pos rfl]
  have e2 : remapT2 size true params = Function.update (remapT1 size true params)
      (origin size, origin size + 1) (-(sumU size (remapT1 size true params))) := by
    unfold remapT2
    rw [if_pos rfl]
  have hne1 : ((origin size, origin size + 1) : ℕ × ℕ) ≠ (origin size + 1, origin size) := by
    intro h
    rw [Prod.mk.injEq] at h
    omega
  have hne2 : ((origin size, origin size) : ℕ × ℕ) ≠ (origin size + 1, origin size) := by
    intro h
    rw [Prod.mk.injEq] at h
    omega
  have hne3 : ((origin size, origin size) : ℕ × ℕ) ≠ (origin size, origin size + 1) := by
    intro h
    rw [Prod.mk.injEq] at h
    omega
  have hv_t1 : remapT1 size true params (origin size, origin size + 1) = 0 := by
    rw [e1, Function.update_noteq hne1, hz2]
  have hc_t1 : remapT1 size true params (origin size, origin size) = 0 := by
    rw [e1, Function.update_noteq hne2, hz3]
  have hc_t2 : remapT2 size true params (origin size, origin size) = 0 := by
    rw [e2, Function.update_noteq hne3, hc_t1]
  have hSv1 : sumV size (remapT1 size true params) = 0 := by
    rw [e1, sumV_update size _ _ _ hvin, hz1]
    push_cast
    ring
  have hSv2 : sumV size (remapT2 size true params) = 0 := by
    rw [e2, sumV_update size _ _ _ huin, hSv1, hv_t1]
    ring
  have hSv3 : sumV size (remapGrid size pixelArea true params) = 0 := by
    unfold remapGrid
    rw [sumV_update size _ _ _ hoin, hSv2, hc_t2]
    ring
  have hSu1 : sumU size (remapT1 size true params) = sumU size (remapT0 size true params) := by
    rw [e1, sumU_update size _ _ _ hvin, hz1]
    ring
  have hSu2 : sumU size (remapT2 size true params) = 0 := by
    rw [e2, sumU_update size _ _ _ huin, hv_t1, hSu1]
    push_cast
    ring
  have hSu3 : sumU size (remapGrid size pixelArea true params) = 0 := by
    unfold remapGrid
    rw [sumU_update size _ _ _ hoin, hSu2, hc_t2]
    ring
  have hcen : remapGrid size pixelArea true params (origin size, origin size) =
      1 / pixelArea - sumTot size (remapT2 size true params) := by
    unfold remapGrid
    rw [Function.update_same]
  have hTot : sumTot size (remapGrid size pixelArea true params) = 1 / pixelArea := by
    unfold remapGrid
    rw [sumTot_update size _ _ _ hoin, hc_t2]
    ring
  refine ⟨hSv3, hSu3, ?_, ?_⟩
  · rw [hcen, hTot]
    ring
  · unfold remapList
    rw [List.length_map, gridPositions_length]

/-- Witness for C2 on a 3×3 grid with a 6-entry legacy vector. -/
theorem normalize_legacy_remap_centroid_witness :
    sumV 3 (remapGrid 3 1 true [1, 2, 3, 4, 5, 6]) = 0 ∧
    sumU 3 (remapGrid 3 1 true [1, 2, 3, 4, 5, 6]) = 0 ∧
    remapGrid 3 1 true [1, 2, 3, 4, 5, 6] (origin 3, origin 3) =
      1 / 1 -
        (sumTot 3 (remapGrid 3 1 true [1, 2, 3, 4, 5, 6]) -
          remapGrid 3 1 true [1, 2, 3, 4, 5, 6] (origin 3, origin 3)) ∧
    (remapList 3 1 true [1, 2, 3, 4, 5, 6]).length = 3 * 3 :=
  normalize_legacy_remap_centroid 3 1 [1, 2, 3, 4, 5, 6] (by norm_num) (by decide)

lemma sum_map_div (l : List ℚ) (s : ℚ) : (l.map (fun x => x / s)).sum = l.sum / s := by
  induction l with
  | nil => simp
  | cons a l ih => simp [ih, add_div]

/-- C3: with `fitFlux` false and a full-length vector of nonzero sum,
`normalize` divides every value by the current sum, making the sum exactly 1;
since `fit` ends by invoking `normalize`, the vector carried by the star that
`fit` returns also sums to 1. -/
theorem normalize_unit_sum (size : ℕ) (pixelArea : ℚ) (params : List ℚ)
    (hlen : params.length = size * size) (hsum : params.sum ≠ 0) :
    (∃ q : List ℚ, normalizeStarParams size pixelArea false params = some q ∧
      q.sum = 1) ∧
    (∀ (m : ℕ) (A : Matrix (Fin m) (Fin (size * size)) ℚ) (b : Fin m → ℚ)
        (chisq0 : ℚ) (p dp : Fin (size * size) → ℚ),
      (List.ofFn (fun i => p i + dp i)).sum ≠ 0 →
      ∃ q : List ℚ, (fitModel size pixelArea false A b chisq0 p dp).params = some q ∧
        q.sum = 1) := by
  constructor
  · refine ⟨params.map (fun x => x / params.sum), ?_, ?_⟩
    · unfold normalizeStarParams
      rw [if_neg (by omega)]
      rfl
    · rw [sum_map_div, div_self hsum]
  · intro m A b chisq0 p dp hsum2
    refine ⟨(List.ofFn (fun i => p i + dp i)).map
        (fun x => x / (List.ofFn (fun i => p i + dp i)).sum), ?_, ?_⟩
    · show normalizeStarParams size pixelArea false (List.ofFn fun i => p i + dp i) = _
      unfold normalizeStarParams
      rw [if_neg (by rw [List.length_ofFn]; omega)]
      rfl
    · rw [sum_map_div, div_self hsum2]

/-- Witness for C3 on a full-length 1-element vector and a 1×1 system. -/
theorem normalize_unit_sum_witness :
    (∃ q : List ℚ, normalizeStarParams 1 1 false [4] = some q ∧ q.sum = 1) ∧
    (∀ (m : ℕ) (A : Matrix (Fin m) (Fin (1 * 1)) ℚ) (b : Fin m → ℚ)
        (chisq0 : ℚ) (p dp : Fin (1 * 1) → ℚ),
      (List.ofFn (fun i => p i + dp i)).sum ≠ 0 →
      ∃ q : List ℚ, (fitModel 1 1 false A b chisq0 p dp).params = some q ∧
        q.sum = 1) :=
  normalize_unit_sum 1 1 [4] (by decide) (by norm_num)

/-- C8 (code evaluation at the failing input): `normalize` on a legacy short
vector with `fit_flux` True leaves `star.fit.params = None`, discarding the
reconstructed full-length vector (lines 539-546: `star.fit.params` is set to
`None` and `newParams` is invoked only in the `not self._fit_flux` branch),
even though the reconstructed full-length vector exists. -/
theorem normalize_fitflux_legacy_drops_params :
    normalizeStarParams 3 1 true [1, 1, 1, 1, 1, 1] = none ∧
    (remapList 3 1 true [1, 1, 1, 1, 1, 1]).length = 3 * 3 := by
  constructor
  · rfl
  · unfold remapList
    rw [List.length_map, gridPositions_length]

/-- C4 (counterexample to the claim as stated): with `fitFlux = false`, a 1×1
full-rank system `A = [[1]]`, `b = [1]`, current `params = [1]`, and the (here
unique) least-squares solution `dp = [1]` — certified by the normal equations
in the first conjunct — the star returned by `fit` does not carry
`params + dp = [2]`: `normalize` has divided by the sum. -/
theorem fit_params_plus_dp_counterexample :
    ((((Matrix.of fun _ _ => (1 : ℚ)) : Matrix (Fin 1) (Fin 1) ℚ).transpose *
        ((Matrix.of fun _ _ => (1 : ℚ)) : Matrix (Fin 1) (Fin 1) ℚ)).mulVec
          (fun _ => 1)) 0 =
      (((Matrix.of fun _ _ => (1 : ℚ)) : Matrix (Fin 1) (Fin 1) ℚ).transpose.mulVec
          (fun _ => 1)) 0 ∧
    (fitModel 1 1 false ((Matrix.of fun _ _ => (1 : ℚ)) : Matrix (Fin 1) (Fin 1) ℚ)
        (fun _ => 1) 1 (fun _ => 1) (fun _ => 1)).params ≠
      some (List.ofFn fun _ : Fin (1 * 1) => (1 : ℚ) + 1) := by
  constructor
  · simp [Matrix.mulVec, Matrix.dotProduct, Matrix.mul_apply, Fin.sum_univ_one]
  · intro h
    have h1 : (fitModel 1 1 false
        ((Matrix.of fun _ _ => (1 : ℚ)) : Matrix (Fin 1) (Fin 1) ℚ)
        (fun _ => 1) 1 (fun _ => 1) (fun _ => 1)).params = some [1] := by
      show normalizeStarParams 1 1 false (List.ofFn fun _ : Fin (1 * 1) => (1 : ℚ) + 1) =
        some [1]
      norm_num [normalizeStarParams, List.ofFn_succ, List.ofFn_zero]
    rw [h1] at h
    have h2 : (List.ofFn fun _ : Fin (1 * 1) => (1 : ℚ) + 1) = [2] := by
      norm_num [List.ofFn_succ, List.ofFn_zero]
    rw [h2] at h
    simp at h

/-- C4 (amended): `fit` installs `params + dparam` and then normalizes it
(divided by the sum when `fitFlux` is false, unchanged when true), and sets the
returned chisq to the quadratic-model value
`chisq - 2·(A·dp)·b + (A·dp)·(A·dp)` without re-rendering the model; when the
input chisq is `Σ b²` (as produced by `chisq`), this equals the quadratic
model's residual norm `Σ (b - A·dp)²`. -/
theorem fit_update_formulas (size : ℕ) (pixelArea : ℚ) (fitFlux : Bool) (m : ℕ)
    (A : Matrix (Fin m) (Fin (size * size)) ℚ) (b : Fin m → ℚ) (chisq0 : ℚ)
    (p dp : Fin (size * size) → ℚ) (hchisq : chisq0 = ∑ i, (b i) ^ 2) :
    (fitModel size pixelArea fitFlux A b chisq0 p dp).params =
      normalizeStarParams size pixelArea fitFlux (List.ofFn fun i => p i + dp i) ∧
    (fitModel size pixelArea fitFlux A b chisq0 p dp).chisq =
      chisq0 - 2 * Matrix.dotProduct (A.mulVec dp) b +
        Matrix.dotProduct (A.mulVec dp) (A.mulVec dp) ∧
    (fitModel size pixelArea fitFlux A b chisq0 p dp).chisq =
      ∑ i, (b i - A.mulVec dp i) ^ 2 := by
  refine ⟨rfl, ?_, ?_⟩
  · show fitNewChisq A b chisq0 dp = _
    unfold fitNewChisq
    ring
  · show fitNewChisq A b chisq0 dp = _
    unfold fitNewChisq Matrix.dotProduct
    rw [hchisq, Finset.mul_sum, ← Finset.sum_add_distrib, ← Finset.sum_sub_distrib]
    apply Finset.sum_congr rfl
    intro i _
    ring

/-- Witness for C4's amended claim on a concrete 1×1 system. -/
theorem fit_update_formulas_witness :
    (fitModel 1 1 false ((Matrix.of fun _ _ => (1 : ℚ)) : Matrix (Fin 1) (Fin 1) ℚ)
        (fun _ => 1) 1 (fun _ => 1) (fun _ => 1)).params =
      normalizeStarParams 1 1 false (List.ofFn fun i : Fin (1 * 1) =>
        (fun _ => (1 : ℚ)) i + (fun _ => (1 : ℚ)) i) ∧
    (fitModel 1 1 false ((Matrix.of fun _ _ => (1 : ℚ)) : Matrix (Fin 1) (Fin 1) ℚ)
        (fun _ => 1) 1 (fun _ => 1) (fun _ => 1)).chisq =
      1 - 2 * Matrix.dotProduct
          ((((Matrix.of fun _ _ => (1 : ℚ)) : Matrix (Fin 1) (Fin 1) ℚ).mulVec
            (fun _ => 1))) (fun _ => 1) +
        Matrix.dotProduct
          ((((Matrix.of fun _ _ => (1 : ℚ)) : Matrix (Fin 1) (Fin 1) ℚ).mulVec
            (fun _ => 1)))
          ((((Matrix.of fun _ _ => (1 : ℚ)) : Matrix (Fin 1) (Fin 1) ℚ).mulVec
            (fun _ => 1))) ∧
    (fitModel 1 1 false ((Matrix.of fun _ _ => (1 : ℚ)) : Matrix (Fin 1) (Fin 1) ℚ)
        (fun _ => 1) 1 (fun _ => 1) (fun _ => 1)).chisq =
      ∑ i, ((fun _ => (1 : ℚ)) i -
        (((Matrix.of fun _ _ => (1 : ℚ)) : Matrix (Fin 1) (Fin 1) ℚ).mulVec
          (fun _ => 1)) i) ^ 2 :=
  fit_update_formulas 1 1 false 1 (Matrix.of fun _ _ => 1) (fun _ => 1) 1
    (fun _ => 1) (fun _ => 1) (by simp [Fin.sum_univ_one])

/-- C5: when `AᵀA` is singular (zero determinant — the exact-arithmetic
condition for `scipy.linalg.inv` to raise `LinAlgError`), `fit` does not
raise: every per-parameter variance is the 1e100 sentinel and the updated star
is still returned; otherwise the variances are the diagonal of `(AᵀA)⁻¹`. -/
theorem fit_singular_variances (size : ℕ) (pixelArea : ℚ) (fitFlux : Bool) (m : ℕ)
    (A : Matrix (Fin m) (Fin (size * size)) ℚ) (b : Fin m → ℚ) (chisq0 : ℚ)
    (p dp : Fin (size * size) → ℚ) :
    ((A.transpose * A).det = 0 →
      (fitModel size pixelArea fitFlux A b chisq0 p dp).paramsVar =
        fun _ => (10 : ℚ) ^ 100) ∧
    ((A.transpose * A).det ≠ 0 →
      (fitModel size pixelArea fitFlux A b chisq0 p dp).paramsVar =
        ((A.transpose * A)⁻¹).diag) ∧
    (fitModel size pixelArea fitFlux A b chisq0 p dp).params =
      normalizeStarParams size pixelArea fitFlux (List.ofFn fun i => p i + dp i) := by
  refine ⟨?_, ?_, rfl⟩
  · intro hdet
    show fitParamsVar A = _
    unfold fitParamsVar
    rw [if_pos hdet]
  · intro hdet
    show fitParamsVar A = _
    unfold fitParamsVar
    rw [if_neg hdet, Matrix.inv_def, Ring.inverse_eq_inv]

/-- Witness for C5: a 1×1 zero design matrix is singular, and the variances
are the sentinel. -/
theorem fit_singular_variances_witness :
    (fitModel 1 1 false ((Matrix.of fun _ _ => (0 : ℚ)) : Matrix (Fin 1) (Fin 1) ℚ)
        (fun _ => 1) 1 (fun _ => 1) (fun _ => 1)).paramsVar =
      fun _ => (10 : ℚ) ^ 100 :=
  (fit_singular_variances 1 1 false 1 (Matrix.of fun _ _ => 0) (fun _ => 1) 1
    (fun _ => 1) (fun _ => 1)).1
    (by simp [Matrix.det_fin_one, Matrix.mul_apply, Fin.sum_univ_one])

lemma sum_fin_zero {n : ℕ} (h : n = 0) (f : Fin n → ℚ) : ∑ i, f i = 0 := by
  subst h
  simp

lemma dot_fin_zero {n : ℕ} (h : n = 0) (x y : Fin n → ℚ) :
    Matrix.dotProduct x y = 0 := by
  subst h
  simp [Matrix.dotProduct]

/-- C6: a star whose weight array is all zeros retains no pixel: `chisq`
produces `dof = 0`, an empty residual, and chisq value 0, without raising; and
`fit` on that output still returns a star whose quadratic-model chisq is 0 and
whose parameter update is the normalization of `params + dparam` — every
quantity is a total function of the inputs, so no division or empty-system
error can propagate. -/
theorem chisq_all_zero_weights (size : ℕ) (K : Kernel)
    (scale fluxScaling starFlux : ℚ) (sqrtQ : ℚ → ℚ) (u0 v0 : ℚ)
    (data weight u v model : List ℚ) (pixelArea : ℚ) (fitFlux : Bool)
    (p dp : Fin (size * size) → ℚ) (hw : ∀ x ∈ weight, x = 0) :
    (maskedIdxs size scale u0 v0 weight u v).length = 0 ∧
    chisqDof size scale u0 v0 weight u v = 0 ∧
    chisqVal size scale starFlux sqrtQ u0 v0 data weight u v model = 0 ∧
    (fitModel size pixelArea fitFlux
        (chisqA size K scale fluxScaling starFlux sqrtQ u0 v0 weight u v)
        (chisqB size scale starFlux sqrtQ u0 v0 data weight u v model)
        (chisqVal size scale starFlux sqrtQ u0 v0 data weight u v model)
        p dp).chisq = 0 ∧
    (fitModel size pixelArea fitFlux
        (chisqA size K scale fluxScaling starFlux sqrtQ u0 v0 weight u v)
        (chisqB size scale starFlux sqrtQ u0 v0 data weight u v model)
        (chisqVal size scale starFlux sqrtQ u0 v0 data weight u v model)
        p dp).params =
      normalizeStarParams size pixelArea fitFlux (List.ofFn fun i => p i + dp i) := by
  have hidx : maskedIdxs size scale u0 v0 weight u v = [] := by
    unfold maskedIdxs
    rw [List.filter_eq_nil_iff]
    intro i hi
    have hi' := List.mem_range.mp hi
    have hzero : weight.getD i 0 = 0 := by
      rw [List.getD_eq_getElem weight 0 hi']
      exact hw _ (List.get_mem weight i hi')
    simp only [decide_eq_true_eq, not_and]
    intro _ _
    exact fun hne => hne hzero
  have hlen0 : (maskedIdxs size scale u0 v0 weight u v).length = 0 := by
    rw [hidx]
    rfl
  have hval : chisqVal size scale starFlux sqrtQ u0 v0 data weight u v model = 0 :=
    sum_fin_zero hlen0 _
  refine ⟨hlen0, ?_, hval, ?_, rfl⟩
  · unfold chisqDof
    rw [hidx]
    rfl
  · show fitNewChisq _ _ _ _ = 0
    unfold fitNewChisq
    rw [dot_fin_zero hlen0, dot_fin_zero hlen0, hval]
    ring

/-- Witness for C6 with a concrete two-pixel star whose weights are zero. -/
theorem chisq_all_zero_weights_witness :
    (maskedIdxs 1 1 0 0 [0, 0] [0, 0] [0, 0]).length = 0 ∧
    chisqDof 1 1 0 0 [0, 0] [0, 0] [0, 0] = 0 ∧
    chisqVal 1 1 1 (fun x => x) 0 0 [1, 2] [0, 0] [0, 0] [0, 0] [0, 0] = 0 ∧
    (fitModel 1 1 false
        (chisqA 1 linKernel 1 1 1 (fun x => x) 0 0 [0, 0] [0, 0] [0, 0])
        (chisqB 1 1 1 (fun x => x) 0 0 [1, 2] [0, 0] [0, 0] [0, 0] [0, 0])
        (chisqVal 1 1 1 (fun x => x) 0 0 [1, 2] [0, 0] [0, 0] [0, 0] [0, 0])
        (fun _ => 1) (fun _ => 1)).chisq = 0 ∧
    (fitModel 1 1 false
        (chisqA 1 linKernel 1 1 1 (fun x => x) 0 0 [0, 0] [0, 0] [0, 0])
        (chisqB 1 1 1 (fun x => x) 0 0 [1, 2] [0, 0] [0, 0] [0, 0] [0, 0])
        (chisqVal 1 1 1 (fun x => x) 0 0 [1, 2] [0, 0] [0, 0] [0, 0] [0, 0])
        (fun _ => 1) (fun _ => 1)).params =
      normalizeStarParams 1 1 false
        (List.ofFn fun i : Fin (1 * 1) => (fun _ => (1 : ℚ)) i + (fun _ => (1 : ℚ)) i) :=
  chisq_all_zero_weights 1 linKernel 1 1 1 (fun x => x) 0 0 [1, 2] [0, 0] [0, 0]
    [0, 0] [0, 0] 1 false (fun _ => 1) (fun _ => 1) (by
      intro x hx
      rcases List.mem_cons.mp hx with h | h
      · exact h
      · rcases List.mem_cons.mp h with h' | h'
        · exact h'
        · cases h')

/-- C7 (spec-modelled: `star.py` is not in the source tree; `get_params` and
record construction follow spec 6's read-access/new-record contract): `fit`
never mutates its input star — the input record after the call is unchanged,
all updates being carried by the returned record. -/
theorem fit_input_star_unchanged (size : ℕ) (pixelArea : ℚ) (fitFlux : Bool)
    (m : ℕ) (A : Matrix (Fin m) (Fin (size * size)) ℚ) (b : Fin m → ℚ)
    (dp : Fin (size * size) → ℚ) (s : StarFitRec) :
    (fitStar size pixelArea fitFlux A b dp s).1 = s := rfl

/-- C9: `init='zero'` returns exactly `1e-10` (modelled as the exact rational
`1/10^10`) times the vector `init='hsm'` returns for the same star — the
sum-normalized sampled Gaussian built from the same hsm size estimate. -/
theorem initialize_zero_is_scaled_hsm (size : ℕ) (scale : ℚ) (expQ : ℚ → ℚ)
    (sigma : ℚ) :
    initParams size scale expQ sigma InitMethod.zero =
      (initParams size scale expQ sigma InitMethod.hsm).map
        (fun x => x * (1 / 10 ^ 10)) := rfl

end PixelGridModel
